import Mathlib

/-!
Shallow embedding of the client-side search component of the typedoc theme
(`src/lib/output/themes/default/assets/typedoc/components/Search.ts`).

Strings are modeled at the level of lists of characters where index
arithmetic matters (JavaScript string indices become list positions);
`toLocaleLowerCase`/`toLowerCase` are modeled by `Char.toLower` applied
characterwise, and JavaScript numbers carrying relevance scores are modeled
by rationals.
-/

namespace Search

/-- The apostrophe character, one of the five characters `escapeHtml` replaces. -/
def apos : Char := Char.ofNat 39

/-- The characters matched by `escapeHtml`'s regular expression `[&<>"'"]`
(Search.ts line 334): ampersand, angle brackets, double quote, apostrophe. -/
def isSpecialChar (c : Char) : Bool :=
  c == '&' || c == '<' || c == '>' || c == '"' || c == apos

/-- The `SPECIAL_HTML` replacement table (Search.ts lines 324-330):
each special character maps to its HTML entity, every other character to itself. -/
def escapeChar (c : Char) : List Char :=
  if c = '&' then "&amp;".data
  else if c = '<' then "&lt;".data
  else if c = '>' then "&gt;".data
  else if c = apos then "&#039;".data
  else if c = '"' then "&quot;".data
  else [c]

/-- The `escapeHtml` function (Search.ts lines 332-337) on character lists: the regex
`replace` substitutes every special character by its entity. -/
def escapeHtmlL (l : List Char) : List Char :=
  (l.map escapeChar).flatten

/-- The `escapeHtml` function on strings. -/
def escapeHtml (text : String) : String :=
  ⟨escapeHtmlL text.data⟩

/-- Predicate `leadsWith ned hay`: holds when `ned` occurs at the very start of `hay`
(character-by-character comparison). -/
def leadsWith : List Char → List Char → Bool
  | [], _ => true
  | _ :: _, [] => false
  | a :: as, b :: bs => a == b && leadsWith as bs

/-- JavaScript `hay.indexOf(ned)`: the first position at which `ned` occurs in
`hay`, `none` when there is no occurrence. -/
def firstIndexOf (hay ned : List Char) : Option Nat :=
  if leadsWith ned hay then some 0
  else
    match hay with
    | [] => none
    | _ :: rest => (firstIndexOf rest ned).map (· + 1)

/-- JavaScript `hay.indexOf(ned, start)`: the first occurrence of `ned` in
`hay` at a position `≥ start`. -/
def indexOfFrom (hay ned : List Char) (start : Nat) : Option Nat :=
  (firstIndexOf (hay.drop start) ned).map (· + start)

/-- JavaScript `text.substring(a, b)` for `a ≤ b` (both clamped to the length),
as used by `boldMatches`. -/
def substringL (l : List Char) (a b : Nat) : List Char :=
  (l.take b).drop a

/-- The `while` loop of `boldMatches` (Search.ts lines 305-319): starting from
position `lastIndex`, repeatedly locate the next occurrence of the lowercase
search string `ned` in `lowerText`, emitting the escaped text before the
occurrence and the escaped occurrence wrapped in `<b>` tags, then the escaped
tail once no occurrence remains. The `ned = []` case is unreachable from
`boldMatches` (which returns early on an empty search) and emits the tail. -/
def boldLoop (text lowerText ned : List Char) (lastIndex : Nat) : List (List Char) :=
  if hne : ned = [] then [escapeHtmlL (substringL text lastIndex text.length)]
  else
    match h : indexOfFrom lowerText ned lastIndex with
    | none => [escapeHtmlL (substringL text lastIndex text.length)]
    | some index =>
        escapeHtmlL (substringL text lastIndex index) ::
        ('<' :: 'b' :: '>' ::
          escapeHtmlL (substringL text index (index + ned.length)) ++
          ['<', '/', 'b', '>']) ::
        boldLoop text lowerText ned (index + ned.length)
termination_by lowerText.length + 1 - lastIndex
decreasing_by
  have hlw : ∀ as bs : List Char, leadsWith as bs = true → as.length ≤ bs.length := by
    intro as
    induction as with
    | nil => intro bs _; exact Nat.zero_le _
    | cons a as ih =>
        intro bs hb
        cases bs with
        | nil => simp [leadsWith] at hb
        | cons b bs =>
            simp only [leadsWith, Bool.and_eq_true] at hb
            simpa [List.length_cons] using Nat.succ_le_succ (ih bs hb.2)
  have key : ∀ (hay : List Char) (j : Nat), firstIndexOf hay ned = some j →
      j + ned.length ≤ hay.length := by
    intro hay
    induction hay with
    | nil =>
        intro j hj
        by_cases hp : leadsWith ned [] = true
        · cases ned with
          | nil => exact absurd rfl hne
          | cons c cs => simp [leadsWith] at hp
        · simp [firstIndexOf, hp] at hj
    | cons c rest ih =>
        intro j hj
        by_cases hp : leadsWith ned (c :: rest) = true
        · simp only [firstIndexOf, hp, if_true, Option.some.injEq] at hj
          subst hj
          simpa using hlw ned (c :: rest) hp
        · cases hrest : firstIndexOf rest ned with
          | none => rw [firstIndexOf, if_neg hp, hrest] at hj; simp at hj
          | some j' =>
              rw [firstIndexOf, if_neg hp, hrest, Option.map_some',
                Option.some.injEq] at hj
              have := ih j' hrest
              simp only [List.length_cons]
              omega
  simp only [indexOfFrom, Option.map_eq_some'] at h
  obtain ⟨j, hj, rfl⟩ := h
  have hb := key _ _ hj
  have hd : (lowerText.drop lastIndex).length = lowerText.length - lastIndex := by
    simp
  have hlen : 1 ≤ ned.length := by
    cases ned with
    | nil => exact absurd rfl hne
    | cons c cs => simp
  omega

/-- The `boldMatches` function (Search.ts lines 296-322): wraps every non-overlapping
case-insensitive occurrence of `search` inside `text` in `<b>` tags and
escapes all emitted text; an empty search returns the text unchanged. -/
def boldMatches (text search : String) : String :=
  if search = "" then text
  else
    ⟨(boldLoop text.data (text.data.map Char.toLower)
        (search.data.map Char.toLower) 0).flatten⟩

/-- The specification's highlighting scan, written from its words: walk the
text left to right; whenever the lowercase search string occurs at the current
position, emit it as one highlighted segment and greedily advance past it
(no overlap, no re-matching inside the matched span), otherwise emit one
plain character and advance by one. -/
def greedySegs (ned : List Char) : List Char → List (Bool × List Char)
  | [] => []
  | c :: rest =>
      if ned ≠ [] ∧ leadsWith ned ((c :: rest).map Char.toLower) then
        (true, (c :: rest).take ned.length) :: greedySegs ned ((c :: rest).drop ned.length)
      else
        (false, [c]) :: greedySegs ned rest
termination_by l => l.length
decreasing_by
  · rename_i hcond
    have hlen : 1 ≤ ned.length := by
      cases ned with
      | nil => exact absurd rfl hcond.1
      | cons a as => simp
    simp only [List.length_drop, List.length_cons]
    omega
  · simp only [List.length_cons]; omega

/-- Render one segment of the greedy scan: highlighted segments are escaped and
wrapped in `<b>` tags, plain segments are escaped. -/
def renderSeg (s : Bool × List Char) : List Char :=
  if s.1 then '<' :: 'b' :: '>' :: escapeHtmlL s.2 ++ ['<', '/', 'b', '>']
  else escapeHtmlL s.2

/-- Concatenate the rendered segments of a greedy scan. -/
def renderSegsL (segs : List (Bool × List Char)) : List Char :=
  (segs.map renderSeg).flatten

/-- Markup-safe output: a character list decomposes into the two intentional
emphasis tags, the five HTML entities, and characters that are not special;
in particular no raw special character occurs outside the emphasis tags. -/
inductive SafeOutput : List Char → Prop
  | nil : SafeOutput []
  | tagOpen {rest : List Char} : SafeOutput rest → SafeOutput ('<' :: 'b' :: '>' :: rest)
  | tagClose {rest : List Char} : SafeOutput rest → SafeOutput ('<' :: '/' :: 'b' :: '>' :: rest)
  | entAmp {rest : List Char} : SafeOutput rest → SafeOutput ("&amp;".data ++ rest)
  | entLt {rest : List Char} : SafeOutput rest → SafeOutput ("&lt;".data ++ rest)
  | entGt {rest : List Char} : SafeOutput rest → SafeOutput ("&gt;".data ++ rest)
  | entApos {rest : List Char} : SafeOutput rest → SafeOutput ("&#039;".data ++ rest)
  | entQuot {rest : List Char} : SafeOutput rest → SafeOutput ("&quot;".data ++ rest)
  | plain {c : Char} {rest : List Char} :
      isSpecialChar c = false → SafeOutput rest → SafeOutput (c :: rest)

/-- One match produced by the full-text engine (lunr): a row reference and a
relevance score. `ref` is a string in lunr and converted with `Number(...)` at
every use; it is modeled directly as the row position. -/
structure LunrResult where
  ref : Nat
  score : ℚ
deriving DecidableEq

/-- A loaded lunr index is external library state; it is modeled abstractly as
the query function it implements, from the query pattern to the ranked
matches. -/
def Engine := String → List LunrResult

/-- The `IDocument` row (Search.ts lines 6-14). -/
structure IDocument where
  id : Nat
  kind : Nat
  name : String
  url : String
  classes : Option String
  parent : Option String
  categories : List String
deriving DecidableEq

/-- Placeholder row for an out-of-range row reference; the data-model
invariant says match references are always positions into the row table, so
this value is never reached from well-formed data (in JavaScript such an
access would throw on the subsequent field reads). -/
def emptyDocument : IDocument :=
  ⟨0, 0, "", "", none, none, []⟩

/-- The row access `state.data.rows[Number(item.ref)]`. -/
def rowAt (rows : List IDocument) (i : Nat) : IDocument :=
  rows.getD i emptyDocument

/-- The `boosts` part of `SearchConfig` (from the options declaration):
three optional, composable multiplier families. The two JavaScript objects
keyed by kind label and by category are modeled as association lists in
enumeration order. -/
structure SearchBoosts where
  exactMatch : Option ℚ
  byKind : List (String × ℚ)
  byCategory : List (String × ℚ)

/-- The `SearchConfig` options object as used by `updateResults`: an optional
boost configuration and an optional result count (default 10). -/
structure SearchConfig where
  boosts : Option SearchBoosts
  numResults : Option Nat

/-- The `IData` global slot (Search.ts lines 16-21): kind-label table, row
table, serialized index (modeled by the engine it deserializes to), and the
search configuration. -/
structure IData where
  kinds : List (Nat × String)
  rows : List IDocument
  index : Engine
  searchConfig : SearchConfig

/-- JavaScript `toLowerCase` on strings, modeled characterwise (consistently
with the treatment of `toLocaleLowerCase` in `boldMatches`). -/
def lowerStr (s : String) : String :=
  ⟨s.data.map Char.toLower⟩

/-- JavaScript `parseInt(s, 10)` as applied to enum keys (no leading
whitespace or sign occurs there): the longest leading run of decimal digits,
`none` modeling `NaN` when there is none. -/
def parseIntDec (s : String) : Option Nat :=
  let ds := s.data.takeWhile Char.isDigit
  if ds.isEmpty then none
  else some (ds.foldl (fun n c => n * 10 + (c.toNat - 48)) 0)

/-- Modelled from the spec: the `ReflectionKind` numeric enum is not among the
reviewed sources; it is taken as an abstract table of (member name, integer
value) pairs with distinct identifier names and distinct values. A TypeScript
numeric enum object carries both the reverse numeric-string keys (mapping to
the member name) and the member-name keys (mapping to the numeric value);
`Object.keys` lists both. Each pair below is one such key together with the
string `ReflectionKind[key].toString()`. -/
def enumEntries (table : List (String × Nat)) : List (String × String) :=
  table.map (fun p => (toString p.2, p.1)) ++ table.map (fun p => (p.1, toString p.2))

/-- The reverse label-to-kind lookup (Search.ts lines 187-195):
`parseInt(Object.keys(ReflectionKind).find(key => ReflectionKind[key]
.toString().toLowerCase() === kindName.toLowerCase()) ?? "", 10)`.
A `none` result models `NaN`, which compares unequal to every row kind. -/
def lookupKind (table : List (String × Nat)) (kindName : String) : Option Nat :=
  parseIntDec
    ((((enumEntries table).find? (fun kv => lowerStr kv.2 == lowerStr kindName)).map
        Prod.fst).getD "")

/-- The body of the kind-boost loop (Search.ts lines 186-199): when the
configured key's reverse lookup equals the row's kind, multiply the running
boost by that key's multiplier; a failed lookup (`NaN`) never matches. -/
def kindStep (table : List (String × Nat)) (row : IDocument) (acc : ℚ)
    (kv : String × ℚ) : ℚ :=
  match lookupKind table kv.1 with
  | some k => if row.kind = k then acc * kv.2 else acc
  | none => acc

/-- The body of the category-boost loop (Search.ts lines 202-207): when the
configured key occurs among the row's categories, multiply the running boost
by that key's multiplier. -/
def categoryStep (row : IDocument) (acc : ℚ) (kv : String × ℚ) : ℚ :=
  if kv.1 ∈ row.categories then acc * kv.2 else acc

/-- The boost accumulation of `updateResults` (Search.ts lines 175-209) for one
row: start from 1; multiply by the exact-match boost when it is configured,
truthy (nonzero) and the row name equals the trimmed query case-insensitively;
then run the kind-boost loop over the configured kind keys, then the
category-boost loop over the configured category keys. -/
def computeBoost (table : List (String × Nat)) (b : SearchBoosts)
    (searchText : String) (row : IDocument) : ℚ :=
  let boost : ℚ := 1
  let boost :=
    match b.exactMatch with
    | some m => if m ≠ 0 ∧ lowerStr row.name = lowerStr searchText then boost * m else boost
    | none => boost
  let boost := b.byKind.foldl (kindStep table row) boost
  let boost := b.byCategory.foldl (categoryStep row) boost
  boost

/-- The exact-match factor of the boost, in isolation (the `&&` guard makes a
configured multiplier of 0 falsy, so it is skipped). -/
def exactFactor (b : SearchBoosts) (searchText : String) (row : IDocument) : ℚ :=
  match b.exactMatch with
  | some m => if m ≠ 0 ∧ lowerStr row.name = lowerStr searchText then m else 1
  | none => 1

/-- The kind factor of the boost, in isolation: the product of the configured
kind multipliers whose key resolves to the row's kind. -/
def kindFactor (table : List (String × Nat)) (b : SearchBoosts) (row : IDocument) : ℚ :=
  b.byKind.foldl (kindStep table row) 1

/-- The category factor of the boost, in isolation: the product of the
configured category multipliers whose key occurs in the row's categories. -/
def categoryFactor (b : SearchBoosts) (row : IDocument) : ℚ :=
  b.byCategory.foldl (categoryStep row) 1

/-- The boost multiplier exactly as the examined claim words it: the
exact-match multiplier is applied whenever the row's display name
case-insensitively equals the trimmed query (with no truthiness guard on the
configured multiplier), composed multiplicatively with the kind and category
factors. -/
def claimedBoost (table : List (String × Nat)) (b : SearchBoosts)
    (searchText : String) (row : IDocument) : ℚ :=
  (match b.exactMatch with
   | some m => if lowerStr row.name = lowerStr searchText then m else 1
   | none => 1) *
  kindFactor table b row * categoryFactor b row

/-- The wildcard pattern handed to the engine (Search.ts line 169). -/
def wildcardQuery (searchText : String) : String :=
  "*" ++ searchText ++ "*"

/-- JavaScript `String.prototype.trim` modeled characterwise: remove the
whitespace characters at both ends. -/
def jsTrim (s : String) : String :=
  ⟨(((s.data.dropWhile Char.isWhitespace).reverse).dropWhile Char.isWhitespace).reverse⟩

/-- Insert a match into a list sorted by descending score, after every item of
strictly greater score: the stable placement the JavaScript comparator
`(a, b) => b.score - a.score` induces. -/
def insertDesc (r : LunrResult) : List LunrResult → List LunrResult
  | [] => [r]
  | x :: xs => if r.score < x.score then x :: insertDesc r xs else r :: x :: xs

/-- The sort `res.sort((a, b) => b.score - a.score)` (Search.ts line 212): the stable
sort placing higher scores first, modeled as stable insertion sort (a stable
sort's output is uniquely determined by the comparator). -/
def sortByScoreDesc (res : List LunrResult) : List LunrResult :=
  res.foldr insertDesc []

/-- The boost pass over the matches (Search.ts lines 172-210): every match's
score is multiplied by its row's boost. -/
def applyBoosts (table : List (String × Nat)) (b : SearchBoosts)
    (rows : List IDocument) (searchText : String) (res : List LunrResult) :
    List LunrResult :=
  res.map (fun item => ⟨item.ref, item.score * computeBoost table b searchText (rowAt rows item.ref)⟩)

/-- The match computation of `updateResults` (Search.ts lines 164-219): trim
the query; an empty trimmed query yields no matches, otherwise run the
wildcard search; when a boost configuration exists, boost and re-sort; keep
the first `Math.min(numResults ?? 10, res.length)` matches. -/
def searchMatches (engine : Engine) (rows : List IDocument)
    (table : List (String × Nat)) (cfg : SearchConfig) (queryValue : String) :
    List LunrResult :=
  let searchText := jsTrim queryValue
  let res := if searchText ≠ "" then engine (wildcardQuery searchText) else []
  let res :=
    match cfg.boosts with
    | some b => sortByScoreDesc (applyBoosts table b rows searchText res)
    | none => res
  res.take (min (cfg.numResults.getD 10) res.length)

/-- One rendered `li` of the results list (Search.ts lines 220-240): its CSS
classes (`row.classes ?? ""`), the anchor target (`base + row.url`) and the
anchor's inner markup (the highlighted, escaped name, preceded by the
highlighted parent qualifier when present). The anchor additionally always
carries the constant class `tsd-kind-icon`, not modeled. -/
structure RenderedItem where
  classes : String
  href : String
  innerHTML : String
deriving DecidableEq

/-- Build the rendered item for one row (Search.ts lines 220-240). -/
def renderRow (base : String) (searchText : String) (row : IDocument) : RenderedItem :=
  let name := boldMatches row.name searchText
  let name :=
    match row.parent with
    | some parent =>
        "<span class=\"parent\">" ++ boldMatches parent searchText ++
          ".</span>" ++ name
    | none => name
  ⟨row.classes.getD "", base ++ row.url, name⟩

/-- The full query-to-rendering computation for a ready index: the rendered
contents of the results container after `updateResults` runs. -/
def renderResults (engine : Engine) (rows : List IDocument) (base : String)
    (table : List (String × Nat)) (cfg : SearchConfig) (queryValue : String) :
    List RenderedItem :=
  (searchMatches engine rows table cfg queryValue).map
    (fun r => renderRow base (jsTrim queryValue) (rowAt rows r.ref))

/-- The widget state (Search.ts lines 29-33). -/
structure SearchState where
  base : String
  data : Option IData
  index : Option Engine

/-- The `checkIndex` function (Search.ts lines 139-148): a no-op when the index is already
loaded; otherwise, when the global slot is populated, store the dataset and
the loaded index (the ready/loading style toggles are not modeled). -/
def checkIndex (state : SearchState) (windowSearchData : Option IData) : SearchState :=
  if state.index.isSome then state
  else
    match windowSearchData with
    | some d => ⟨state.base, some d, some d.index⟩
    | none => state

/-- The `updateResults` function (Search.ts lines 150-242), viewed as a function from the global
slot, the widget state, the query text and the previous contents of the
results container to the new state and container contents: after `checkIndex`,
an unready index leaves the container untouched (the early return before
`results.textContent = ""`); a ready index replaces the contents with the
rendered matches. -/
def updateResults (windowSearchData : Option IData) (state : SearchState)
    (table : List (String × Nat)) (cfg : SearchConfig) (queryValue : String)
    (prev : List RenderedItem) : SearchState × List RenderedItem :=
  let state := checkIndex state windowSearchData
  match state.index, state.data with
  | some engine, some data =>
      (state, renderResults engine data.rows state.base table cfg queryValue)
  | some _, none => (state, prev)
  | none, _ => (state, prev)

/-- One `li` of the rendered results list as the navigation code sees it:
whether it is laid out (`offsetParent != null`), whether it carries the
`current` class, and its anchor's target. -/
structure ResultItem where
  visible : Bool
  current : Bool
  href : String
deriving DecidableEq

/-- Placeholder item for out-of-range accesses (never reached from the
positions the navigation code produces). -/
def emptyItem : ResultItem :=
  ⟨false, false, ""⟩

/-- The item at a position of the results list. -/
def itemAt (items : List ResultItem) (i : Nat) : ResultItem :=
  items.getD i emptyItem

/-- Set or clear the `current` class of the item at one position; positions
past the end leave the list unchanged. -/
def setCur : List ResultItem → Nat → Bool → List ResultItem
  | [], _, _ => []
  | it :: rest, 0, b => ⟨it.visible, b, it.href⟩ :: rest
  | it :: rest, n + 1, b => it :: setCur rest n b

/-- The query `results.querySelector(".current")`: the position of the first item
carrying the `current` class. -/
def currentIdx (items : List ResultItem) : Option Nat :=
  items.findIdx? (·.current)

/-- The forward walk of `setCurrentResult` (Search.ts lines 260-263):
`rel = rel.nextElementSibling` repeated while the sibling exists and has no
`offsetParent`; `some j` is the landing position, `none` means the siblings
were exhausted. -/
def walkNext (items : List ResultItem) (j : Nat) : Option Nat :=
  match hj : items.get? j with
  | none => none
  | some it => if it.visible then some j else walkNext items (j + 1)
termination_by items.length - j
decreasing_by
  have : j < items.length := List.get?_eq_some.mp hj |>.1
  omega

/-- The backward walk of `setCurrentResult` (Search.ts lines 264-267),
starting at position `j`. -/
def walkPrev (items : List ResultItem) (j : Nat) : Option Nat :=
  match items.get? j with
  | none => none
  | some it =>
      if it.visible then some j
      else if h0 : j = 0 then none else walkPrev items (j - 1)
termination_by j
decreasing_by omega

/-- The `setCurrentResult` function (Search.ts lines 247-275): with no current item, mark
the first (`dir == 1`) or last item current, regardless of visibility; with a
current item, walk the siblings in the requested direction past the items that
are not laid out, and when the walk lands on an item, move the `current` class
to it, otherwise change nothing. -/
def setCurrentResult (items : List ResultItem) (dir : Int) : List ResultItem :=
  match currentIdx items with
  | none =>
      let sel : Option Nat :=
        if dir = 1 then (if items.isEmpty then none else some 0)
        else (if items.isEmpty then none else some (items.length - 1))
      match sel with
      | some i => setCur items i true
      | none => items
  | some i =>
      let rel : Option Nat :=
        if dir = 1 then walkNext items (i + 1)
        else if i = 0 then none else walkPrev items (i - 1)
      match rel with
      | some j => setCur (setCur items i false) j true
      | none => items

/-- The first visible position strictly after `i`, as the specification words
the forward move. -/
def firstVisibleAfter (items : List ResultItem) (i : Nat) : Option Nat :=
  ((items.drop (i + 1)).findIdx? (·.visible)).map (· + (i + 1))

/-- The last visible position strictly before `i`, as the specification words
the backward move. -/
def lastVisibleBefore (items : List ResultItem) (i : Nat) : Option Nat :=
  (((items.take i).reverse).findIdx? (·.visible)).map (fun k => i - 1 - k)

/-- The move(direction) transition as the specification states it: with no
current element, the first (next) or last (previous) element becomes current;
with a current element, the selection moves to the nearest visible sibling in
the requested direction (skipping the non-visible ones), unmarking the old
current, and stays unchanged when no visible sibling exists. -/
def specMove (items : List ResultItem) (dir : Int) : List ResultItem :=
  match currentIdx items with
  | none =>
      if items.isEmpty then items
      else if dir = 1 then setCur items 0 true
      else setCur items (items.length - 1) true
  | some i =>
      let target := if dir = 1 then firstVisibleAfter items i else lastVisibleBefore items i
      match target with
      | some j => setCur (setCur items i false) j true
      | none => items

/-- The externally visible effect of activating a result: the navigation
target assigned to `window.location.href`, if any, and whether the input field
was blurred. -/
structure ActivateEffect where
  navigate : Option String
  blurred : Bool
deriving DecidableEq

/-- The `gotoCurrentResult` function (Search.ts lines 280-294): take the current item,
falling back to the first item; when one exists, navigate to its anchor's
target and blur the field (every rendered item contains an anchor, so the
inner `querySelector("a")` is modeled as always succeeding); with no item at
all, do nothing. -/
def gotoCurrentResult (items : List ResultItem) : ActivateEffect :=
  let current :=
    match currentIdx items with
    | some i => some i
    | none => if items.isEmpty then none else some 0
  match current with
  | some i => ⟨some (itemAt items i).href, true⟩
  | none => ⟨none, false⟩

theorem escapeHtmlL_append (a b : List Char) :
    escapeHtmlL (a ++ b) = escapeHtmlL a ++ escapeHtmlL b := by
  simp [escapeHtmlL]

theorem renderSegsL_append (a b : List (Bool × List Char)) :
    renderSegsL (a ++ b) = renderSegsL a ++ renderSegsL b := by
  simp [renderSegsL]

theorem renderSegsL_cons (s : Bool × List Char) (segs : List (Bool × List Char)) :
    renderSegsL (s :: segs) = renderSeg s ++ renderSegsL segs := by
  simp [renderSegsL]

theorem renderSegsL_plain (l : List Char) :
    renderSegsL (l.map (fun c => (false, [c]))) = escapeHtmlL l := by
  induction l with
  | nil => rfl
  | cons c rest ih =>
      rw [List.map_cons]
      show renderSeg (false, [c]) ++ renderSegsL (rest.map (fun c => (false, [c]))) = _
      rw [ih]
      simp [renderSeg, escapeHtmlL]

theorem leadsWith_nil_iff (ned : List Char) : leadsWith ned [] = true ↔ ned = [] := by
  cases ned with
  | nil => simp [leadsWith]
  | cons c cs => simp [leadsWith]

theorem greedySegs_of_no_occurrence (ned : List Char) :
    ∀ text : List Char, ned ≠ [] →
      firstIndexOf (text.map Char.toLower) ned = none →
      greedySegs ned text = text.map (fun c => (false, [c])) := by
  intro text
  induction text with
  | nil => intro _ _; rw [greedySegs]; rfl
  | cons c rest ih =>
      intro hne h
      simp only [List.map_cons] at h
      by_cases hp : leadsWith ned (c.toLower :: rest.map Char.toLower) = true
      · rw [firstIndexOf, if_pos hp] at h
        exact Option.noConfusion h
      · have hrest : firstIndexOf (rest.map Char.toLower) ned = none := by
          rw [firstIndexOf, if_neg hp] at h
          exact Option.map_eq_none'.mp h
        rw [greedySegs]
        simp only [List.map_cons]
        rw [if_neg (fun hand => hp hand.2)]
        simp [ih hne hrest]

theorem substringL_cons (c : Char) (l : List Char) (a b : Nat) :
    substringL (c :: l) (a + 1) (b + 1) = substringL l a b := by
  simp [substringL, List.take_succ_cons, List.drop_succ_cons]

theorem substringL_drop (l : List Char) (a b c : Nat) :
    substringL l (a + c) (b + c) = substringL (l.drop c) a b := by
  induction c generalizing l with
  | zero => simp
  | succ k ih =>
      cases l with
      | nil => simp [substringL]
      | cons x xs =>
          have h1 : a + (k + 1) = (a + k) + 1 := by omega
          have h2 : b + (k + 1) = (b + k) + 1 := by omega
          rw [h1, h2, substringL_cons, ih, List.drop_succ_cons]

theorem greedySegs_of_occurrence (ned : List Char) :
    ∀ (text : List Char) (j : Nat), ned ≠ [] →
      firstIndexOf (text.map Char.toLower) ned = some j →
      greedySegs ned text =
        (text.take j).map (fun c => (false, [c])) ++
          (true, substringL text j (j + ned.length)) ::
            greedySegs ned (text.drop (j + ned.length)) := by
  intro text
  induction text with
  | nil =>
      intro j hne h
      simp only [List.map_nil] at h
      by_cases hp : leadsWith ned ([] : List Char) = true
      · exact absurd ((leadsWith_nil_iff ned).mp hp) hne
      · rw [firstIndexOf, if_neg hp] at h
        exact absurd h (by simp)
  | cons c rest ih =>
      intro j hne h
      simp only [List.map_cons] at h
      by_cases hp : leadsWith ned (c.toLower :: rest.map Char.toLower) = true
      · rw [firstIndexOf, if_pos hp, Option.some.injEq] at h
        subst h
        rw [greedySegs]
        simp only [List.map_cons]
        rw [if_pos ⟨hne, hp⟩]
        simp [substringL]
      · cases hrest : firstIndexOf (rest.map Char.toLower) ned with
        | none =>
            rw [firstIndexOf, if_neg hp, hrest] at h
            exact absurd h (by simp)
        | some j' =>
            rw [firstIndexOf, if_neg hp, hrest, Option.map_some', Option.some.injEq] at h
            subst h
            rw [greedySegs]
            simp only [List.map_cons]
            rw [if_neg (fun hand => hp hand.2)]
            rw [ih j' hne hrest]
            have harith : j' + 1 + ned.length = (j' + ned.length) + 1 := by omega
            simp only [List.take_succ_cons, List.map_cons, harith, List.drop_succ_cons,
              substringL_cons, List.cons_append]

theorem boldLoop_flatten_eq (text ned : List Char) (hne : ned ≠ []) :
    ∀ lastIndex : Nat,
      (boldLoop text (text.map Char.toLower) ned lastIndex).flatten =
        renderSegsL (greedySegs ned (text.drop lastIndex)) := by
  suffices H : ∀ (n lastIndex : Nat), text.length + 1 - lastIndex ≤ n →
      (boldLoop text (text.map Char.toLower) ned lastIndex).flatten =
        renderSegsL (greedySegs ned (text.drop lastIndex)) by
    intro lastIndex
    exact H (text.length + 1 - lastIndex) lastIndex le_rfl
  intro n
  induction n with
  | zero =>
      intro lastIndex hle
      have hli : text.length ≤ lastIndex := by omega
      have hdrop : text.drop lastIndex = [] := List.drop_eq_nil_of_le hli
      have hdropmap : (text.map Char.toLower).drop lastIndex = [] := by
        rw [← List.map_drop, hdrop, List.map_nil]
      have hidx : indexOfFrom (text.map Char.toLower) ned lastIndex = none := by
        rw [indexOfFrom, hdropmap, firstIndexOf,
          if_neg (by simpa using fun hh => hne ((leadsWith_nil_iff ned).mp hh))]
        rfl
      rw [boldLoop, dif_neg hne]
      split
      · rw [hdrop, greedySegs]
        simp [substringL, List.drop_eq_nil_of_le hli, renderSegsL, escapeHtmlL]
      · rename_i index heq
        rw [hidx] at heq
        exact Option.noConfusion heq
  | succ n ih =>
      intro lastIndex hle
      rw [boldLoop, dif_neg hne]
      split
      · rename_i heq
        rw [indexOfFrom, Option.map_eq_none'] at heq
        rw [← List.map_drop] at heq
        rw [greedySegs_of_no_occurrence ned (text.drop lastIndex) hne heq]
        rw [renderSegsL_plain]
        have : substringL text lastIndex text.length = text.drop lastIndex := by
          simp [substringL]
        simp [this]
      · rename_i index heq
        rw [indexOfFrom, Option.map_eq_some'] at heq
        obtain ⟨j, hj, rfl⟩ := heq
        rw [← List.map_drop] at hj
        have hbound : j + ned.length ≤ (text.drop lastIndex).length := by
          have hlw : ∀ as bs : List Char, leadsWith as bs = true → as.length ≤ bs.length := by
            intro as
            induction as with
            | nil => intro bs _; exact Nat.zero_le _
            | cons a as ihas =>
                intro bs hb
                cases bs with
                | nil => simp [leadsWith] at hb
                | cons b bs =>
                    simp only [leadsWith, Bool.and_eq_true] at hb
                    simpa [List.length_cons] using Nat.succ_le_succ (ihas bs hb.2)
          have key : ∀ (hay : List Char) (j' : Nat), firstIndexOf hay ned = some j' →
              j' + ned.length ≤ hay.length := by
            intro hay
            induction hay with
            | nil =>
                intro j' hj'
                by_cases hp : leadsWith ned [] = true
                · exact absurd ((leadsWith_nil_iff ned).mp hp) hne
                · rw [firstIndexOf, if_neg hp] at hj'
                  exact absurd hj' (by simp)
            | cons x xs ihx =>
                intro j' hj'
                by_cases hp : leadsWith ned (x :: xs) = true
                · rw [firstIndexOf, if_pos hp, Option.some.injEq] at hj'
                  subst hj'
                  simpa using hlw ned (x :: xs) hp
                · cases hxs : firstIndexOf xs ned with
                  | none =>
                      rw [firstIndexOf, if_neg hp, hxs] at hj'
                      exact absurd hj' (by simp)
                  | some k =>
                      rw [firstIndexOf, if_neg hp, hxs, Option.map_some',
                        Option.some.injEq] at hj'
                      have := ihx k hxs
                      simp only [List.length_cons]
                      omega
          have := key _ _ hj
          simpa using this
        have hnedlen : 1 ≤ ned.length := by
          cases ned with
          | nil => exact absurd rfl hne
          | cons a as => simp
        have hlir : lastIndex ≤ text.length := by
          by_contra hgt
          have hdn : text.drop lastIndex = [] := List.drop_eq_nil_of_le (by omega)
          rw [hdn] at hbound
          simp only [List.length_nil, Nat.le_zero, Nat.add_eq_zero] at hbound
          omega
        rw [greedySegs_of_occurrence ned (text.drop lastIndex) j hne hj]
        rw [renderSegsL_append, List.flatten_cons, List.flatten_cons]
        have hrec := ih (j + lastIndex + ned.length) (by
          simp only [List.length_drop] at hbound
          omega)
        rw [hrec]
        have e1 : substringL text lastIndex (j + lastIndex) = (text.drop lastIndex).take j := by
          have : substringL text lastIndex (j + lastIndex) =
              substringL text (0 + lastIndex) (j + lastIndex) := by
            norm_num
          rw [this, substringL_drop]
          simp [substringL]
        have e2 : substringL text (j + lastIndex) (j + lastIndex + ned.length) =
            substringL (text.drop lastIndex) j (j + ned.length) := by
          have h1 : j + lastIndex = j + lastIndex := rfl
          have h2 : j + lastIndex + ned.length = (j + ned.length) + lastIndex := by omega
          rw [h2, substringL_drop]
        have e3 : (text.drop lastIndex).drop (j + ned.length) =
            text.drop (j + lastIndex + ned.length) := by
          rw [List.drop_drop]
          congr 1
          omega
        rw [e1, e2, e3]
        rw [renderSegsL_plain, renderSegsL_cons]
        simp [renderSeg, List.append_assoc]

theorem safeOutput_append {a b : List Char} (ha : SafeOutput a) (hb : SafeOutput b) :
    SafeOutput (a ++ b) := by
  induction ha with
  | nil => simpa using hb
  | tagOpen _ ih => exact SafeOutput.tagOpen ih
  | tagClose _ ih => exact SafeOutput.tagClose ih
  | entAmp _ ih => simpa [List.append_assoc] using SafeOutput.entAmp ih
  | entLt _ ih => simpa [List.append_assoc] using SafeOutput.entLt ih
  | entGt _ ih => simpa [List.append_assoc] using SafeOutput.entGt ih
  | entApos _ ih => simpa [List.append_assoc] using SafeOutput.entApos ih
  | entQuot _ ih => simpa [List.append_assoc] using SafeOutput.entQuot ih
  | plain hsc _ ih => exact SafeOutput.plain hsc ih

theorem safeOutput_escapeChar (c : Char) : SafeOutput (escapeChar c) := by
  rw [escapeChar]
  by_cases h1 : c = '&'
  · rw [if_pos h1]; simpa using SafeOutput.entAmp SafeOutput.nil
  rw [if_neg h1]
  by_cases h2 : c = '<'
  · rw [if_pos h2]; simpa using SafeOutput.entLt SafeOutput.nil
  rw [if_neg h2]
  by_cases h3 : c = '>'
  · rw [if_pos h3]; simpa using SafeOutput.entGt SafeOutput.nil
  rw [if_neg h3]
  by_cases h4 : c = apos
  · rw [if_pos h4]; simpa using SafeOutput.entApos SafeOutput.nil
  rw [if_neg h4]
  by_cases h5 : c = '"'
  · rw [if_pos h5]; simpa using SafeOutput.entQuot SafeOutput.nil
  rw [if_neg h5]
  exact SafeOutput.plain (by simp [isSpecialChar, h1, h2, h3, h4, h5]) SafeOutput.nil

theorem safeOutput_escapeHtmlL (l : List Char) : SafeOutput (escapeHtmlL l) := by
  induction l with
  | nil => exact SafeOutput.nil
  | cons c rest ih => exact safeOutput_append (safeOutput_escapeChar c) ih

theorem safeOutput_renderSeg (s : Bool × List Char) : SafeOutput (renderSeg s) := by
  rw [renderSeg]
  by_cases h : s.1 = true
  · rw [if_pos h]
    exact SafeOutput.tagOpen
      (safeOutput_append (safeOutput_escapeHtmlL s.2) (SafeOutput.tagClose SafeOutput.nil))
  · rw [if_neg h]
    exact safeOutput_escapeHtmlL s.2

theorem safeOutput_renderSegsL (segs : List (Bool × List Char)) :
    SafeOutput (renderSegsL segs) := by
  induction segs with
  | nil => exact SafeOutput.nil
  | cons s rest ih => exact safeOutput_append (safeOutput_renderSeg s) ih

theorem boldMatches_data_eq (text search : String) (h : search ≠ "") :
    (boldMatches text search).data =
      renderSegsL (greedySegs (search.data.map Char.toLower) text.data) := by
  have hne : search.data.map Char.toLower ≠ [] := by
    intro hmap
    exact h (String.ext (by simpa using List.map_eq_nil_iff.mp hmap))
  rw [boldMatches, if_neg h]
  simpa using boldLoop_flatten_eq text.data (search.data.map Char.toLower) hne 0

/-- C5: for every text and non-empty query, `boldMatches` produces exactly the
rendering of the left-to-right greedy scan for non-overlapping
case-insensitive occurrences of the query: each found occurrence is escaped
and wrapped in an emphasis (`<b>`) marker, the segments between occurrences
are escaped, and all pieces are concatenated in order. -/
theorem boldMatches_eq_greedy_scan (text search : String) (h : search ≠ "") :
    boldMatches text search =
      ⟨renderSegsL (greedySegs (search.data.map Char.toLower) text.data)⟩ :=
  String.ext (boldMatches_data_eq text search h)

theorem boldMatches_eq_greedy_scan_witness :
    ("oo" : String) ≠ "" ∧
      boldMatches "FooBar" "oo" =
        ⟨renderSegsL (greedySegs ("oo".data.map Char.toLower) "FooBar".data)⟩ :=
  ⟨by decide, boldMatches_eq_greedy_scan "FooBar" "oo" (by decide)⟩

/-- C6: for every result name containing markup-special characters and every
non-empty query, the highlighted output is markup-safe: outside the
intentional `<b>` emphasis tags, every special character of the input appears
only as its HTML entity, never raw. -/
theorem highlighted_name_has_no_raw_markup (name q : String) (hq : q ≠ "")
    (hc : ∃ c ∈ name.data, isSpecialChar c = true) :
    SafeOutput (boldMatches name q).data := by
  rw [boldMatches_data_eq name q hq]
  exact safeOutput_renderSegsL _

theorem highlighted_name_has_no_raw_markup_witness :
    ("a" : String) ≠ "" ∧ (∃ c ∈ ("p<q&r" : String).data, isSpecialChar c = true) ∧
      SafeOutput (boldMatches "p<q&r" "a").data :=
  ⟨by decide, by decide,
    highlighted_name_has_no_raw_markup "p<q&r" "a" (by decide) (by decide)⟩

theorem take_min_length {α : Type} (l : List α) (n : Nat) :
    l.take (min n l.length) = l.take n := by
  rcases Nat.le_total n l.length with h | h
  · rw [Nat.min_eq_left h]
  · rw [Nat.min_eq_right h, List.take_length, List.take_of_length_le h]

/-- C1: a query whose trimmed form is empty yields the empty sequence of
matches and renders nothing, for every engine, dataset, kind table and boost
configuration. -/
theorem empty_trimmed_query_yields_no_results (engine : Engine)
    (rows : List IDocument) (base : String) (table : List (String × Nat))
    (cfg : SearchConfig) (q : String) (hq : jsTrim q = "") :
    searchMatches engine rows table cfg q = [] ∧
      renderResults engine rows base table cfg q = [] := by
  have hm : searchMatches engine rows table cfg q = [] := by
    cases hb : cfg.boosts with
    | none => simp [searchMatches, hq, hb]
    | some b => simp [searchMatches, hq, hb, applyBoosts, sortByScoreDesc]
  exact ⟨hm, by simp [renderResults, hm]⟩

theorem empty_trimmed_query_yields_no_results_witness :
    jsTrim "   " = "" ∧
      searchMatches (fun _ => [(⟨0, 1⟩ : LunrResult)]) [] [] ⟨none, none⟩ "   " = [] ∧
      renderResults (fun _ => [(⟨0, 1⟩ : LunrResult)]) [] "" [] ⟨none, none⟩ "   " = [] := by
  refine ⟨by decide, ?_, ?_⟩
  · exact (empty_trimmed_query_yields_no_results
      (fun _ => [(⟨0, 1⟩ : LunrResult)]) [] "" [] ⟨none, none⟩ "   " (by decide)).1
  · exact (empty_trimmed_query_yields_no_results
      (fun _ => [(⟨0, 1⟩ : LunrResult)]) [] "" [] ⟨none, none⟩ "   " (by decide)).2

/-- C2: with no boost configuration and a non-empty trimmed query, the matches
are exactly the engine's matches in the engine's own order, truncated to the
first `numResults` entries (default 10), and the rendered results are exactly
those matches rendered in that order. -/
theorem no_boost_keeps_engine_order (engine : Engine) (rows : List IDocument)
    (base : String) (table : List (String × Nat)) (n : Option Nat) (q : String)
    (hq : jsTrim q ≠ "") :
    searchMatches engine rows table ⟨none, n⟩ q =
        (engine (wildcardQuery (jsTrim q))).take (n.getD 10) ∧
      renderResults engine rows base table ⟨none, n⟩ q =
        ((engine (wildcardQuery (jsTrim q))).take (n.getD 10)).map
          (fun r => renderRow base (jsTrim q) (rowAt rows r.ref)) := by
  have hm : searchMatches engine rows table ⟨none, n⟩ q =
      (engine (wildcardQuery (jsTrim q))).take (n.getD 10) := by
    simp only [searchMatches, hq, ne_eq, not_false_eq_true, if_true, if_pos]
    exact take_min_length _ _
  exact ⟨hm, by simp [renderResults, hm]⟩

theorem no_boost_keeps_engine_order_witness :
    jsTrim "ab" ≠ "" ∧
      searchMatches (fun _ => [(⟨0, 1⟩ : LunrResult), ⟨1, 2⟩]) [] [] ⟨none, none⟩ "ab" =
        ((fun (_ : String) => [(⟨0, 1⟩ : LunrResult), ⟨1, 2⟩])
            (wildcardQuery (jsTrim "ab"))).take ((none : Option Nat).getD 10) :=
  ⟨by decide,
    (no_boost_keeps_engine_order (fun _ => [(⟨0, 1⟩ : LunrResult), ⟨1, 2⟩]) [] "" []
      none "ab" (by decide)).1⟩

/-- C10: a query cycle that runs while the loaded index is absent and the
global data slot is unpopulated returns early: the widget state and the
previously rendered contents of the results container (loading or error
message included) are left exactly unchanged. -/
theorem unready_index_leaves_container_unchanged (state : SearchState)
    (table : List (String × Nat)) (cfg : SearchConfig) (q : String)
    (prev : List RenderedItem) (hidx : state.index = none) :
    updateResults none state table cfg q prev = (state, prev) := by
  have hchk : checkIndex state none = state := by
    rw [checkIndex]
    rw [hidx]
    rfl
  rw [updateResults]
  simp only [hchk, hidx]

theorem unready_index_leaves_container_unchanged_witness :
    (⟨"b/", none, none⟩ : SearchState).index = none ∧
      updateResults none ⟨"b/", none, none⟩ [] ⟨none, none⟩ "q"
          [⟨"", "", "loading"⟩] =
        (⟨"b/", none, none⟩, [⟨"", "", "loading"⟩]) :=
  ⟨rfl, unready_index_leaves_container_unchanged ⟨"b/", none, none⟩ [] ⟨none, none⟩
    "q" [⟨"", "", "loading"⟩] rfl⟩

theorem foldl_extract_of_step {α : Type} (f : ℚ → α → ℚ)
    (hstep : ∀ (a : ℚ) (x : α), f a x = a * f 1 x) :
    ∀ (l : List α) (a : ℚ), l.foldl f a = a * l.foldl f 1 := by
  intro l
  induction l with
  | nil => intro a; simp
  | cons x xs ih =>
      intro a
      rw [List.foldl_cons, List.foldl_cons, hstep a x, ih (a * f 1 x), ih (f 1 x)]
      ring

theorem kindStep_extract (table : List (String × Nat)) (row : IDocument)
    (a : ℚ) (kv : String × ℚ) :
    kindStep table row a kv = a * kindStep table row 1 kv := by
  rw [kindStep, kindStep]
  cases lookupKind table kv.1 with
  | none => simp
  | some k =>
      by_cases h : row.kind = k
      · simp [h, mul_assoc]
      · simp [h]

theorem categoryStep_extract (row : IDocument) (a : ℚ) (kv : String × ℚ) :
    categoryStep row a kv = a * categoryStep row 1 kv := by
  rw [categoryStep, categoryStep]
  by_cases h : kv.1 ∈ row.categories
  · simp [h, mul_assoc]
  · simp [h]

theorem computeBoost_eq_factors (table : List (String × Nat)) (b : SearchBoosts)
    (searchText : String) (row : IDocument) :
    computeBoost table b searchText row =
      exactFactor b searchText row * kindFactor table b row * categoryFactor b row := by
  simp only [computeBoost, exactFactor, kindFactor, categoryFactor]
  rw [foldl_extract_of_step (categoryStep row) (categoryStep_extract row),
    foldl_extract_of_step (kindStep table row) (kindStep_extract table row)]
  cases hbe : b.exactMatch with
  | none => simp [mul_assoc]
  | some m =>
      by_cases hcond : m ≠ 0 ∧ lowerStr row.name = lowerStr searchText
      · simp only [if_pos hcond]
        ring
      · simp only [if_neg hcond]

theorem foldl_id_of_no_rule {α : Type} (f : ℚ → α → ℚ) (l : List α)
    (h : ∀ (a : ℚ), ∀ x ∈ l, f a x = a) : ∀ a : ℚ, l.foldl f a = a := by
  induction l with
  | nil => intro a; rfl
  | cons x xs ih =>
      intro a
      rw [List.foldl_cons, h a x (List.mem_cons_self x xs)]
      exact ih (fun a y hy => h a y (List.mem_cons_of_mem x hy)) a

theorem mem_insertDesc {b r : LunrResult} :
    ∀ {l : List LunrResult}, b ∈ insertDesc r l → b = r ∨ b ∈ l := by
  intro l
  induction l with
  | nil =>
      intro h
      rw [insertDesc] at h
      exact Or.inl (List.mem_singleton.mp h)
  | cons x xs ih =>
      intro h
      rw [insertDesc] at h
      by_cases hc : r.score < x.score
      · rw [if_pos hc] at h
        rcases List.mem_cons.mp h with h1 | h2
        · exact Or.inr (h1 ▸ List.mem_cons_self x xs)
        · rcases ih h2 with h3 | h4
          · exact Or.inl h3
          · exact Or.inr (List.mem_cons_of_mem x h4)
      · rw [if_neg hc] at h
        rcases List.mem_cons.mp h with h1 | h2
        · exact Or.inl h1
        · exact Or.inr h2

theorem sorted_insertDesc (r : LunrResult) (l : List LunrResult)
    (h : l.Sorted (fun a b => b.score ≤ a.score)) :
    (insertDesc r l).Sorted (fun a b => b.score ≤ a.score) := by
  induction l with
  | nil => simp [insertDesc]
  | cons x xs ih =>
      rw [insertDesc]
      rw [List.sorted_cons] at h
      by_cases hc : r.score < x.score
      · rw [if_pos hc]
        rw [List.sorted_cons]
        refine ⟨?_, ih h.2⟩
        intro c hcmem
        rcases mem_insertDesc hcmem with h1 | h2
        · exact h1 ▸ le_of_lt hc
        · exact h.1 c h2
      · rw [if_neg hc]
        rw [List.sorted_cons]
        refine ⟨?_, List.sorted_cons.mpr h⟩
        intro c hcmem
        rcases List.mem_cons.mp hcmem with h1 | h2
        · exact h1 ▸ le_of_not_lt hc
        · exact le_trans (h.1 c h2) (le_of_not_lt hc)

theorem sorted_sortByScoreDesc (l : List LunrResult) :
    (sortByScoreDesc l).Sorted (fun a b => b.score ≤ a.score) := by
  induction l with
  | nil => simp [sortByScoreDesc]
  | cons x xs ih => exact sorted_insertDesc x _ ih

/-- C3 counterexample: with an exact-match boost configured as 0 and a single
match of base score 1 on a row whose name equals the query, the code keeps the
final score 1 (the JavaScript `&&` guard treats the 0 multiplier as falsy and
skips it), while the claim's formula multiplies the base score down to 0. -/
theorem claimed_boost_formula_fails_at_zero_exact_match :
    searchMatches (fun _ => [(⟨0, 1⟩ : LunrResult)]) [⟨0, 0, "a", "u", none, none, []⟩]
        [] ⟨some ⟨some 0, [], []⟩, none⟩ "a" = [⟨0, 1⟩] ∧
      (1 : ℚ) * claimedBoost [] ⟨some 0, [], []⟩ (jsTrim "a")
          ⟨0, 0, "a", "u", none, none, []⟩ = 0 ∧
      (1 : ℚ) ≠ 0 := by
  refine ⟨?_, ?_, by norm_num⟩
  · simp [searchMatches, jsTrim, wildcardQuery, applyBoosts, sortByScoreDesc, insertDesc,
      computeBoost, rowAt, emptyDocument]
  · simp [claimedBoost, kindFactor, categoryFactor, jsTrim, lowerStr]

/-- C3 (amended): when a boost configuration is present, every match's final
score is the base score multiplied by the product of the exact-match factor
(applied iff the configured multiplier is nonzero and the row's name equals
the trimmed query case-insensitively), the kind factor and the category
factor; a row matching no boost rule keeps multiplier 1; the composition is
multiplicative; and the matches are re-sorted descending by final score. -/
theorem boosted_scores_multiplicative_and_resorted (engine : Engine)
    (rows : List IDocument) (table : List (String × Nat)) (b : SearchBoosts)
    (n : Option Nat) (q : String) (hq : jsTrim q ≠ "") :
    searchMatches engine rows table ⟨some b, n⟩ q =
        (sortByScoreDesc ((engine (wildcardQuery (jsTrim q))).map
          (fun item => ⟨item.ref, item.score *
            (exactFactor b (jsTrim q) (rowAt rows item.ref) *
              kindFactor table b (rowAt rows item.ref) *
              categoryFactor b (rowAt rows item.ref))⟩))).take (n.getD 10) ∧
      (∀ row : IDocument,
        (b.exactMatch = none ∨ lowerStr row.name ≠ lowerStr (jsTrim q)) →
        (∀ kv ∈ b.byKind, ∀ k, lookupKind table kv.1 = some k → row.kind ≠ k) →
        (∀ kv ∈ b.byCategory, kv.1 ∉ row.categories) →
        computeBoost table b (jsTrim q) row = 1) ∧
      (searchMatches engine rows table ⟨some b, n⟩ q).Sorted
        (fun x y => y.score ≤ x.score) := by
  have hmain : searchMatches engine rows table ⟨some b, n⟩ q =
      (sortByScoreDesc ((engine (wildcardQuery (jsTrim q))).map
        (fun item => ⟨item.ref, item.score *
          (exactFactor b (jsTrim q) (rowAt rows item.ref) *
            kindFactor table b (rowAt rows item.ref) *
            categoryFactor b (rowAt rows item.ref))⟩))).take (n.getD 10) := by
    simp only [searchMatches, hq, ne_eq, not_false_eq_true, if_true, if_pos, applyBoosts]
    rw [take_min_length]
    congr 2
    apply List.map_congr_left
    intro item _
    rw [computeBoost_eq_factors]
  refine ⟨hmain, ?_, ?_⟩
  · intro row hexact hkind hcat
    rw [computeBoost_eq_factors]
    have he : exactFactor b (jsTrim q) row = 1 := by
      rw [exactFactor]
      cases hbe : b.exactMatch with
      | none => rfl
      | some m =>
          rcases hexact with h1 | h2
          · rw [hbe] at h1; exact Option.noConfusion h1
          · show (if m ≠ 0 ∧ lowerStr row.name = lowerStr (jsTrim q) then m else 1) = 1
            rw [if_neg (fun hand => h2 hand.2)]
    have hk : kindFactor table b row = 1 := by
      rw [kindFactor]
      refine foldl_id_of_no_rule _ _ ?_ 1
      intro a kv hkv
      rw [kindStep]
      cases hlk : lookupKind table kv.1 with
      | none => rfl
      | some k =>
          have := hkind kv hkv k hlk
          simp [this]
    have hc : categoryFactor b row = 1 := by
      rw [categoryFactor]
      refine foldl_id_of_no_rule _ _ ?_ 1
      intro a kv hkv
      rw [categoryStep]
      simp [hcat kv hkv]
    rw [he, hk, hc]
    norm_num
  · rw [hmain]
    exact List.Pairwise.sublist (List.take_sublist _ _) (sorted_sortByScoreDesc _)

theorem boosted_scores_multiplicative_and_resorted_witness :
    jsTrim "a" ≠ "" ∧
      searchMatches (fun _ => [(⟨0, 1⟩ : LunrResult), ⟨1, 2⟩])
          [⟨0, 0, "a", "u", none, none, []⟩, ⟨1, 0, "b", "v", none, none, []⟩] []
          ⟨some ⟨some 4, [], []⟩, none⟩ "a" =
        (sortByScoreDesc (((fun (_ : String) => [(⟨0, 1⟩ : LunrResult), ⟨1, 2⟩])
            (wildcardQuery (jsTrim "a"))).map
          (fun item => ⟨item.ref, item.score *
            (exactFactor ⟨some 4, [], []⟩ (jsTrim "a")
                (rowAt [⟨0, 0, "a", "u", none, none, []⟩,
                  ⟨1, 0, "b", "v", none, none, []⟩] item.ref) *
              kindFactor [] ⟨some 4, [], []⟩
                (rowAt [⟨0, 0, "a", "u", none, none, []⟩,
                  ⟨1, 0, "b", "v", none, none, []⟩] item.ref) *
              categoryFactor ⟨some 4, [], []⟩
                (rowAt [⟨0, 0, "a", "u", none, none, []⟩,
                  ⟨1, 0, "b", "v", none, none, []⟩] item.ref))⟩))).take
          ((none : Option Nat).getD 10) :=
  ⟨by decide,
    (boosted_scores_multiplicative_and_resorted
      (fun _ => [(⟨0, 1⟩ : LunrResult), ⟨1, 2⟩])
      [⟨0, 0, "a", "u", none, none, []⟩, ⟨1, 0, "b", "v", none, none, []⟩] []
      ⟨some 4, [], []⟩ none "a" (by decide)).1⟩

theorem lookupKind_unknown (table : List (String × Nat)) (kindName : String)
    (hid : ∀ p ∈ table, (p.1.data.head?.any Char.isDigit) = false)
    (hunk : ∀ p ∈ table, lowerStr p.1 ≠ lowerStr kindName) :
    lookupKind table kindName = none := by
  rw [lookupKind]
  cases hf : (enumEntries table).find? (fun kv => lowerStr kv.2 == lowerStr kindName) with
  | none =>
      simp only [Option.map_none', Option.getD_none]
      rfl
  | some kv =>
      have hmem := List.mem_of_find?_eq_some hf
      have hpred := List.find?_some hf
      rw [enumEntries, List.mem_append] at hmem
      simp only [Option.map_some', Option.getD_some]
      rcases hmem with hm | hm
      · obtain ⟨p, hp, rfl⟩ := List.mem_map.mp hm
        exact absurd (by simpa using hpred) (hunk p hp)
      · obtain ⟨p, hp, rfl⟩ := List.mem_map.mp hm
        rw [parseIntDec]
        have hdig := hid p hp
        cases hd : p.1.data with
        | nil => simp [hd]
        | cons c cs =>
            rw [hd] at hdig
            simp only [List.head?_cons, Option.any_some] at hdig
            simp [hd, List.takeWhile, hdig]

/-- C4: a configured kind-boost key whose label does not case-insensitively
match any known kind's display label is silently ignored, even inside a mixed
configuration that also contains known keys: the reverse lookup yields the
NaN-like `none` rather than failing the query, that key's loop step leaves
every row's running boost unchanged (effective multiplier 1), and the query
result with the key at any position of the configured kind-boost list equals
the result with just that key removed. The hypothesis `hid` records that enum
member names are identifiers and so do not start with a digit. -/
theorem unknown_kind_label_key_is_ignored (engine : Engine) (rows : List IDocument)
    (table : List (String × Nat)) (e : Option ℚ) (ks₁ ks₂ : List (String × ℚ))
    (kn : String) (m : ℚ) (cs : List (String × ℚ)) (n : Option Nat) (q : String)
    (hid : ∀ p ∈ table, (p.1.data.head?.any Char.isDigit) = false)
    (hunk : ∀ p ∈ table, lowerStr p.1 ≠ lowerStr kn) :
    lookupKind table kn = none ∧
      (∀ (row : IDocument) (a : ℚ), kindStep table row a (kn, m) = a) ∧
      (∀ row : IDocument,
        kindFactor table ⟨e, ks₁ ++ (kn, m) :: ks₂, cs⟩ row =
          kindFactor table ⟨e, ks₁ ++ ks₂, cs⟩ row) ∧
      searchMatches engine rows table ⟨some ⟨e, ks₁ ++ (kn, m) :: ks₂, cs⟩, n⟩ q =
        searchMatches engine rows table ⟨some ⟨e, ks₁ ++ ks₂, cs⟩, n⟩ q := by
  have hlk : lookupKind table kn = none := lookupKind_unknown table kn hid hunk
  have hstep : ∀ (row : IDocument) (a : ℚ), kindStep table row a (kn, m) = a := by
    intro row a
    rw [kindStep]
    dsimp only
    rw [hlk]
  have hfold : ∀ (row : IDocument) (a : ℚ),
      (ks₁ ++ (kn, m) :: ks₂).foldl (kindStep table row) a =
        (ks₁ ++ ks₂).foldl (kindStep table row) a := by
    intro row a
    rw [List.foldl_append, List.foldl_append, List.foldl_cons, hstep row]
  have hkf : ∀ row : IDocument,
      kindFactor table ⟨e, ks₁ ++ (kn, m) :: ks₂, cs⟩ row =
        kindFactor table ⟨e, ks₁ ++ ks₂, cs⟩ row := by
    intro row
    rw [kindFactor, kindFactor]
    exact hfold row 1
  refine ⟨hlk, hstep, hkf, ?_⟩
  have hcb : ∀ row : IDocument,
      computeBoost table ⟨e, ks₁ ++ (kn, m) :: ks₂, cs⟩ (jsTrim q) row =
        computeBoost table ⟨e, ks₁ ++ ks₂, cs⟩ (jsTrim q) row := by
    intro row
    simp only [computeBoost]
    rw [hfold row]
  simp only [searchMatches, applyBoosts]
  have hmap : ∀ res : List LunrResult,
      res.map (fun item =>
        (⟨item.ref, item.score * computeBoost table ⟨e, ks₁ ++ (kn, m) :: ks₂, cs⟩
          (jsTrim q) (rowAt rows item.ref)⟩ : LunrResult)) =
      res.map (fun item =>
        ⟨item.ref, item.score * computeBoost table ⟨e, ks₁ ++ ks₂, cs⟩
          (jsTrim q) (rowAt rows item.ref)⟩) := by
    intro res
    apply List.map_congr_left
    intro item _
    rw [hcb]
  rw [hmap]

theorem unknown_kind_label_key_is_ignored_witness :
    (∀ p ∈ [(("Class", 128) : String × Nat)], (p.1.data.head?.any Char.isDigit) = false) ∧
      (∀ p ∈ [(("Class", 128) : String × Nat)], lowerStr p.1 ≠ lowerStr "NoSuchKind") ∧
      lookupKind [("Class", 128)] "NoSuchKind" = none ∧
      searchMatches (fun _ => [(⟨0, 1⟩ : LunrResult)]) [⟨0, 128, "a", "u", none, none, []⟩]
          [("Class", 128)]
          ⟨some ⟨none, [("class", 2), ("NoSuchKind", 5)], []⟩, none⟩ "a" =
        searchMatches (fun _ => [(⟨0, 1⟩ : LunrResult)]) [⟨0, 128, "a", "u", none, none, []⟩]
          [("Class", 128)] ⟨some ⟨none, [("class", 2)], []⟩, none⟩ "a" := by
  refine ⟨by decide, by decide, ?_, ?_⟩
  · exact (unknown_kind_label_key_is_ignored (fun _ => [(⟨0, 1⟩ : LunrResult)])
      [⟨0, 128, "a", "u", none, none, []⟩] [("Class", 128)] none [("class", 2)] []
      "NoSuchKind" 5 [] none "a" (by decide) (by decide)).1
  · exact (unknown_kind_label_key_is_ignored (fun _ => [(⟨0, 1⟩ : LunrResult)])
      [⟨0, 128, "a", "u", none, none, []⟩] [("Class", 128)] none [("class", 2)] []
      "NoSuchKind" 5 [] none "a" (by decide) (by decide)).2.2.2

theorem currentIdx_lt {items : List ResultItem} {i : Nat}
    (h : currentIdx items = some i) : i < items.length := by
  rw [currentIdx] at h
  obtain ⟨hlt, -⟩ := List.findIdx?_eq_some_iff_getElem.mp h
  exact hlt

theorem walkNext_eq (items : List ResultItem) :
    ∀ j : Nat,
      walkNext items j = ((items.drop j).findIdx? (·.visible)).map (· + j) := by
  suffices H : ∀ (n j : Nat), items.length - j ≤ n →
      walkNext items j = ((items.drop j).findIdx? (·.visible)).map (· + j) by
    intro j
    exact H (items.length - j) j le_rfl
  intro n
  induction n with
  | zero =>
      intro j hle
      have hge : items.length ≤ j := by omega
      have hnone : items.get? j = none := List.get?_eq_none.mpr hge
      have hdrop : items.drop j = [] := List.drop_eq_nil_of_le hge
      rw [walkNext]
      split
      · rw [hdrop]
        rfl
      · rename_i it heq
        rw [hnone] at heq
        exact Option.noConfusion heq
  | succ n ih =>
      intro j hle
      rw [walkNext]
      split
      · rename_i heq
        have hge : items.length ≤ j := List.get?_eq_none.mp heq
        have hdrop : items.drop j = [] := List.drop_eq_nil_of_le hge
        rw [hdrop]
        rfl
      · rename_i it heq
        have hlt : j < items.length := by
          by_contra hge
          rw [List.get?_eq_none.mpr (by omega)] at heq
          exact Option.noConfusion heq
        have hget : items[j] = it := by
          have := List.get?_eq_getElem? items j
          rw [this, List.getElem?_eq_getElem hlt, Option.some.injEq] at heq
          exact heq
        have hdrop : items.drop j = it :: items.drop (j + 1) := by
          rw [List.drop_eq_getElem_cons hlt, hget]
        rw [hdrop]
        rw [List.findIdx?_cons]
        by_cases hv : it.visible = true
        · simp [hv]
        · rw [if_neg hv, if_neg (by simpa using hv)]
          rw [ih (j + 1) (by omega)]
          rw [List.findIdx?_succ]
          cases hfi : (items.drop (j + 1)).findIdx? (·.visible) with
          | none => rfl
          | some k =>
              simp only [Option.map_some', Option.some.injEq]
              omega

theorem walkPrev_eq (items : List ResultItem) :
    ∀ j : Nat, j < items.length →
      walkPrev items j =
        (((items.take (j + 1)).reverse).findIdx? (·.visible)).map (fun k => j - k) := by
  intro j
  induction j with
  | zero =>
      intro hlt
      have hget : items.get? 0 = some items[0] := by
        rw [List.get?_eq_getElem?, List.getElem?_eq_getElem hlt]
      have htake : (items.take 1).reverse = [items[0]] := by
        rw [List.take_succ]
        simp [List.getElem?_eq_getElem hlt]
      rw [walkPrev, hget, htake]
      by_cases hv : items[0].visible = true
      · simp [hv]
      · simp [hv]
  | succ m ih =>
      intro hlt
      have hmlt : m < items.length := by omega
      have hget : items.get? (m + 1) = some items[m + 1] := by
        rw [List.get?_eq_getElem?, List.getElem?_eq_getElem hlt]
      have htake : (items.take (m + 2)).reverse = items[m + 1] :: (items.take (m + 1)).reverse := by
        rw [List.take_succ]
        simp [List.getElem?_eq_getElem hlt]
      rw [walkPrev, hget, htake, List.findIdx?_cons]
      by_cases hv : items[m + 1].visible = true
      · simp [hv]
      · have hstep : walkPrev items m =
            (((items.take (m + 1)).reverse).findIdx? (·.visible)).map (fun k => m - k) :=
          ih hmlt
        simp only [hv, Bool.false_eq_true, if_false, Nat.succ_ne_zero, dite_false,
          Nat.add_sub_cancel, List.findIdx?_succ, Nat.zero_add, hstep]
        cases hfi : ((items.take (m + 1)).reverse).findIdx? (·.visible) with
        | none => rfl
        | some k =>
            simp only [Option.map_some', Option.some.injEq]
            omega

/-- C7: `setCurrentResult` coincides with the specification's move transition
on every result list and direction: with no current element the first
(direction next) or last (direction previous) element becomes current; with a
current element the selection moves to the nearest visible sibling in the
requested direction, skipping the non-visible ones and unmarking the old
current, and stays unchanged when the siblings are exhausted. -/
theorem setCurrentResult_eq_specMove (items : List ResultItem) (dir : Int) :
    setCurrentResult items dir = specMove items dir := by
  simp only [setCurrentResult, specMove]
  cases hcur : currentIdx items with
  | none =>
      cases hemp : items.isEmpty
      · by_cases hd : dir = 1 <;> simp [hd]
      · by_cases hd : dir = 1 <;> simp [hd]
  | some i =>
      have hlt : i < items.length := currentIdx_lt hcur
      dsimp only
      by_cases hd : dir = 1
      · rw [if_pos hd, if_pos hd, walkNext_eq items (i + 1)]
        rfl
      · rw [if_neg hd, if_neg hd]
        by_cases h0 : i = 0
        · subst h0
          rw [if_pos rfl]
          rw [show lastVisibleBefore items 0 = none from rfl]
        · rw [if_neg h0, walkPrev_eq items (i - 1) (by omega)]
          have : i - 1 + 1 = i := by omega
          rw [this]
          rfl

/-- C8 fails on the code: from the no-current state, `setCurrentResult` marks
`li:first-child` (or `li:last-child`) current without the `offsetParent`
visibility check that guards the sibling walk, so a hidden element can become
current — contradicting the invariant that a current element is always
visible, and the code's own comment that users cannot mark a hidden result
current with the arrow keys. Evaluated at the failing input: a single hidden
result and a move(next) from the no-current state. -/
theorem hidden_first_element_becomes_current :
    setCurrentResult [⟨false, false, "u"⟩] 1 = [⟨false, true, "u"⟩] ∧
      ∃ it ∈ setCurrentResult [⟨false, false, "u"⟩] 1,
        it.current = true ∧ it.visible = false := by
  constructor
  · decide
  · decide

/-- C9 counterexample: activating with an empty result list does not remove
input focus — the code blurs the field only inside `if (current)`, and with no
results no element is ever current — contradicting the claim that focus is
removed in all cases. -/
theorem activate_on_empty_list_keeps_focus :
    (gotoCurrentResult []).blurred = false := by
  decide

/-- C9 (amended): on activate, if no element is current and at least one
result exists, the first element is treated as current; whenever a current
element exists or was so selected, the page navigates to that element's link
target and input focus is removed; with no results and no current element,
nothing happens and focus is kept. -/
theorem activate_navigates_to_current_or_first (items : List ResultItem) :
    (currentIdx items = none → items ≠ [] →
      gotoCurrentResult items = ⟨some (itemAt items 0).href, true⟩) ∧
    (∀ i, currentIdx items = some i →
      gotoCurrentResult items = ⟨some (itemAt items i).href, true⟩) ∧
    (items = [] → gotoCurrentResult items = ⟨none, false⟩) := by
  refine ⟨?_, ?_, ?_⟩
  · intro hnone hne
    have hemp : items.isEmpty = false := by
      cases items with
      | nil => exact absurd rfl hne
      | cons x xs => rfl
    simp [gotoCurrentResult, hnone, hemp]
  · intro i hsome
    simp [gotoCurrentResult, hsome]
  · intro h
    subst h
    rfl

theorem activate_navigates_to_current_or_first_witness :
    currentIdx [(⟨true, false, "A"⟩ : ResultItem)] = none ∧
      ([(⟨true, false, "A"⟩ : ResultItem)] ≠ []) ∧
      gotoCurrentResult [(⟨true, false, "A"⟩ : ResultItem)] =
        ⟨some (itemAt [(⟨true, false, "A"⟩ : ResultItem)] 0).href, true⟩ :=
  ⟨by decide, by decide,
    (activate_navigates_to_current_or_first [⟨true, false, "A"⟩]).1 (by decide) (by decide)⟩

end Search
